import Mathlib

/-!
Shallow embedding of the MaxSAT reduction layer of the repository:
`graph.py` (class `Graph` with the three graph reductions) and
`spu_solver.py` (class `SPU`, the software-package-upgrade reduction).

The module `wcnf` (class `WCNFFormula`) is imported by both source files but is
not part of the repository sources; its data model and the two operations the
sources use (`new_var`, `add_clause`) are modelled from the specification
(sections 4.1 and 9).  Everything else is translated directly from the Python
sources.  Python dictionaries are embedded as insertion-ordered association
lists with in-place update, Python `sys.exit` calls and uncaught exceptions as
an `Except` error type, and partial operations (tuple unpacking, list
indexing, dictionary `[]` access) as `Option`/`Except` results.
-/

/-- Modelled from the spec: the weight of a clause of `wcnf.WCNFFormula` is
either the reserved hard sentinel `wcnf.TOP_WEIGHT` or a finite soft weight
(spec 4.1 and 9; the `wcnf` module is not among the repository sources). -/
inductive Weight where
  | hard : Weight
  | soft : ℕ → Weight
deriving DecidableEq

/-- Modelled from the spec: `wcnf.WCNFFormula` holds the count of minted
variables and an ordered sequence of clauses, each a list of literals
(signed integers) paired with a weight (spec 4.1). -/
structure WCNFFormula where
  num_vars : ℕ
  clauses : List (List ℤ × Weight)
deriving DecidableEq

/-- Modelled from the spec: `WCNFFormula.new_var` mints a fresh variable id;
ids are dense and start at 1 (spec 3 and 4.1). -/
def WCNFFormula.new_var (f : WCNFFormula) : WCNFFormula × ℤ :=
  (WCNFFormula.mk (f.num_vars + 1) f.clauses, ((f.num_vars + 1 : ℕ) : ℤ))

/-- Modelled from the spec: `WCNFFormula.add_clause` appends a clause with its
weight to the formula (spec 4.1). -/
def WCNFFormula.add_clause (f : WCNFFormula) (lits : List ℤ) (w : Weight) : WCNFFormula :=
  WCNFFormula.mk f.num_vars (f.clauses ++ [(lits, w)])

/-- A freshly constructed `wcnf.WCNFFormula()`: no variables, no clauses. -/
def emptyFormula : WCNFFormula := WCNFFormula.mk 0 []

/-- The loop `[formula.new_var() for _ in range(n)]`: mints `n` fresh
variables, returning the updated formula and the minted ids in order. -/
def mintVars : ℕ → WCNFFormula → WCNFFormula × List ℤ
  | 0, f => (f, [])
  | n + 1, f =>
    let p := f.new_var
    let q := mintVars n p.1
    (q.1, p.2 :: q.2)

theorem mintVars_eq (n : ℕ) (f : WCNFFormula) :
    mintVars n f = (WCNFFormula.mk (f.num_vars + n) f.clauses,
      (List.range n).map (fun i => ((f.num_vars + i + 1 : ℕ) : ℤ))) := by
  induction n generalizing f with
  | zero => simp [mintVars]
  | succ n ih =>
    simp only [mintVars, WCNFFormula.new_var, ih, List.range_succ_eq_map, List.map_cons,
      List.map_map, Prod.mk.injEq, WCNFFormula.mk.injEq, List.cons.injEq]
    refine ⟨⟨by omega, by trivial⟩, by norm_num, ?_⟩
    apply List.map_congr_left
    intro i _
    simp only [Function.comp_apply]
    congr 1
    omega

/-- The variable list `nodes` the graph reductions build on an empty formula:
variables `1, …, n`. -/
def nodesList (n : ℕ) : List ℤ := (List.range n).map (fun i => ((i + 1 : ℕ) : ℤ))

theorem mintVars_empty (n : ℕ) :
    mintVars n emptyFormula = (WCNFFormula.mk n [], nodesList n) := by
  simp [mintVars_eq, emptyFormula, nodesList]

/-- Python list indexing `xs[i]` for a signed index: a negative index counts
from the end; an index out of range raises `IndexError` (here `none`). -/
def pyIndex (xs : List ℤ) (i : ℤ) : Option ℤ :=
  let j : ℤ := if i < 0 then i + (xs.length : ℤ) else i
  if 0 ≤ j then xs.get? j.toNat else none

theorem pyIndex_nodesList (n e : ℕ) (h1 : 1 ≤ e) (h2 : e ≤ n) :
    pyIndex (nodesList n) ((e : ℤ) - 1) = some ((e : ℕ) : ℤ) := by
  have hnot : ¬ ((e : ℤ) - 1 < 0) := by omega
  have h0 : (0 : ℤ) ≤ (e : ℤ) - 1 := by omega
  simp only [pyIndex, if_neg hnot, if_pos h0]
  have htn : ((e : ℤ) - 1).toNat = e - 1 := by omega
  rw [htn]
  have hlt : e - 1 < n := by omega
  simp only [nodesList, List.get?_map, List.get?_range hlt, Option.map_some']
  congr 2
  omega

/-- A tokenized line of a graph input file (`Graph.read_stream`): a header
line `p edge <n> <m>`, a comment line starting with `c`, or an edge line
giving two node identifiers (any other leading token is treated as an edge
line by the source). -/
inductive GLine where
  | pheader (nodes edges : ℕ)
  | comment
  | edge (a b : ℕ)
deriving DecidableEq

/-- The tuple Python stores for `frozenset([a, b])`: a one-element tuple for
a self-loop, otherwise the two endpoints (determinized in ascending order;
Python's set iteration order is an implementation artifact). -/
def canonEdge (a b : ℕ) : List ℕ :=
  if a = b then [a] else if a < b then [a, b] else [b, a]

/-- The state `Graph.read_stream` accumulates: the node count from the last
header, the edge count declared by the last header (initially `-1`), and the
stored edges. -/
structure Graph where
  n_nodes : ℕ
  n_edges : ℤ
  edges : List (List ℕ)
deriving DecidableEq

/-- Adding an edge to the Python set `edges`: duplicates collapse. -/
def insertEdge (es : List (List ℕ)) (e : List ℕ) : List (List ℕ) :=
  if e ∈ es then es else es ++ [e]

/-- One iteration of the `for line in reader` loop of `Graph.read_stream`. -/
def readStep (g : Graph) : GLine → Graph
  | GLine.pheader n m => Graph.mk n (m : ℤ) g.edges
  | GLine.comment => g
  | GLine.edge a b => Graph.mk g.n_nodes g.n_edges (insertEdge g.edges (canonEdge a b))

/-- `Graph.read_stream`: fold the lines over the initial state
(`n_edges = -1`, no edges). -/
def read_stream (lines : List GLine) : Graph :=
  lines.foldl readStep (Graph.mk 0 (-1) [])

/-- The non-fatal warning `Warning incorrect number of edges` is printed
exactly when the declared edge count differs from the number of stored
edges. -/
def edgeWarning (g : Graph) : Bool := g.n_edges ≠ (g.edges.length : ℤ)

/-- Whether a line is an edge line (neither header nor comment). -/
def isEdgeLine : GLine → Bool
  | GLine.edge _ _ => true
  | _ => false

/-- The per-model decode shared by all three reductions:
`[n for n in model if n > 0]`. -/
def translateModel (model : List ℤ) : List ℤ := model.filter (fun n => decide (0 < n))

/-- The body of the hard-clause loop of `Graph.min_vertex_cover`: unpack the
stored edge into two endpoints (a `ValueError` unless it has exactly two),
index into `nodes` and add a hard clause. -/
def mvcStep (nodes : List ℤ) (f : WCNFFormula) : List ℕ → Option WCNFFormula
  | [e1, e2] => do
    let v1 ← pyIndex nodes ((e1 : ℤ) - 1)
    let v2 ← pyIndex nodes ((e2 : ℤ) - 1)
    some (f.add_clause [v1, v2] Weight.hard)
  | _ => none

/-- The formula built by `Graph.min_vertex_cover`: `n` variables, a soft
clause `[-v]` of weight 1 per node, then a hard clause per stored edge;
`none` when the run raises (`ValueError` on unpacking, `IndexError`). -/
def min_vertex_cover_formula (n : ℕ) (edges : List (List ℕ)) : Option WCNFFormula :=
  let p := mintVars n emptyFormula
  let f1 := p.2.foldl (fun f v => f.add_clause [-v] (Weight.soft 1)) p.1
  edges.foldlM (mvcStep p.2) f1

/-- The pair enumeration of `Graph.max_clique`:
`itertools.product(range(1, n + 1), range(1, n + 1))` in iteration order. -/
def cliquePairs (n : ℕ) : List (ℕ × ℕ) :=
  (List.range n ×ˢ List.range n).map (fun q => (q.1 + 1, q.2 + 1))

/-- The formula built by `Graph.max_clique`: `n` variables, a soft clause
`[v]` of weight 1 per node, then a hard clause `[-v1, -v2]` for every ordered
pair of `itertools.product(range(1, n+1), range(1, n+1))` that is not stored
as an edge in either order and has `v1 < v2`.  Nothing is unpacked, so the
construction is total. -/
def max_clique_formula (n : ℕ) (edges : List (List ℕ)) : WCNFFormula :=
  let p := mintVars n emptyFormula
  let f1 := p.2.foldl (fun f v => f.add_clause [v] (Weight.soft 1)) p.1
  (cliquePairs n).foldl (fun f q =>
    if [q.1, q.2] ∉ edges ∧ [q.2, q.1] ∉ edges ∧ q.1 < q.2 then
      f.add_clause [-(q.1 : ℤ), -(q.2 : ℤ)] Weight.hard
    else f) f1

/-- The body of the soft-clause loop of `Graph.max_cut`: unpack the stored
edge, index into `nodes` and add the two weight-1 soft clauses. -/
def maxCutStep (nodes : List ℤ) (f : WCNFFormula) : List ℕ → Option WCNFFormula
  | [e1, e2] => do
    let v1 ← pyIndex nodes ((e1 : ℤ) - 1)
    let v2 ← pyIndex nodes ((e2 : ℤ) - 1)
    some ((f.add_clause [v1, v2] (Weight.soft 1)).add_clause [-v1, -v2] (Weight.soft 1))
  | _ => none

/-- The formula built by `Graph.max_cut`: `n` variables and, per stored edge,
the soft clauses `[v1, v2]` and `[-v1, -v2]`, each of weight 1; no hard
clauses; `none` when the run raises. -/
def max_cut_formula (n : ℕ) (edges : List (List ℕ)) : Option WCNFFormula :=
  let p := mintVars n emptyFormula
  edges.foldlM (maxCutStep p.2) p.1

/-- A stored edge usable by the unpacking reductions on a graph with nodes
`1, …, n`: exactly two endpoints, both in range. -/
def edge_ok (n : ℕ) : List ℕ → Bool
  | [a, b] => decide (1 ≤ a ∧ a ≤ n ∧ 1 ≤ b ∧ b ≤ n)
  | _ => false

theorem edge_ok_iff (n : ℕ) (e : List ℕ) :
    edge_ok n e = true ↔ ∃ a b, e = [a, b] ∧ 1 ≤ a ∧ a ≤ n ∧ 1 ≤ b ∧ b ≤ n := by
  match e with
  | [] => simp [edge_ok]
  | [a] => simp [edge_ok]
  | [a, b] =>
    simp only [edge_ok, decide_eq_true_eq, List.cons.injEq, and_true]
    constructor
    · intro h
      exact ⟨a, b, ⟨rfl, rfl⟩, h⟩
    · rintro ⟨a2, b2, ⟨rfl, rfl⟩, h⟩
      exact h
  | a :: b :: c :: t => simp [edge_ok]

theorem foldl_soft_neg (vs : List ℤ) (f : WCNFFormula) :
    vs.foldl (fun f v => f.add_clause [-v] (Weight.soft 1)) f
      = WCNFFormula.mk f.num_vars
          (f.clauses ++ vs.map (fun v => ([-v], Weight.soft 1))) := by
  induction vs generalizing f with
  | nil => simp
  | cons v vs ih =>
    rw [List.foldl_cons, ih]
    simp [WCNFFormula.add_clause]

theorem foldl_soft_pos (vs : List ℤ) (f : WCNFFormula) :
    vs.foldl (fun f v => f.add_clause [v] (Weight.soft 1)) f
      = WCNFFormula.mk f.num_vars
          (f.clauses ++ vs.map (fun v => ([v], Weight.soft 1))) := by
  induction vs generalizing f with
  | nil => simp
  | cons v vs ih =>
    rw [List.foldl_cons, ih]
    simp [WCNFFormula.add_clause]

theorem mvc_fold (n : ℕ) (edges : List (List ℕ)) (f : WCNFFormula)
    (h : ∀ e ∈ edges, edge_ok n e = true) :
    edges.foldlM (mvcStep (nodesList n)) f
      = some (WCNFFormula.mk f.num_vars
          (f.clauses ++ edges.map (fun e => (e.map (fun x => (x : ℤ)), Weight.hard)))) := by
  induction edges generalizing f with
  | nil => simp
  | cons e es ih =>
    obtain ⟨a, b, rfl, h1, h2, h3, h4⟩ := (edge_ok_iff n e).mp (h e (List.mem_cons_self e es))
    rw [List.foldlM_cons]
    have hstep : mvcStep (nodesList n) f [a, b]
        = some (f.add_clause [((a : ℕ) : ℤ), ((b : ℕ) : ℤ)] Weight.hard) := by
      simp [mvcStep, pyIndex_nodesList n a h1 h2, pyIndex_nodesList n b h3 h4]
    rw [hstep]
    have ih2 := ih (f.add_clause [((a : ℕ) : ℤ), ((b : ℕ) : ℤ)] Weight.hard)
      (fun e he => h e (List.mem_cons_of_mem _ he))
    simpa [WCNFFormula.add_clause] using ih2

theorem maxcut_fold (n : ℕ) (edges : List (List ℕ)) (f : WCNFFormula)
    (h : ∀ e ∈ edges, edge_ok n e = true) :
    edges.foldlM (maxCutStep (nodesList n)) f
      = some (WCNFFormula.mk f.num_vars
          (f.clauses ++ edges.flatMap (fun e =>
            [(e.map (fun x => (x : ℤ)), Weight.soft 1),
             (e.map (fun x => -(x : ℤ)), Weight.soft 1)]))) := by
  induction edges generalizing f with
  | nil => simp
  | cons e es ih =>
    obtain ⟨a, b, rfl, h1, h2, h3, h4⟩ := (edge_ok_iff n e).mp (h e (List.mem_cons_self e es))
    rw [List.foldlM_cons]
    have hstep : maxCutStep (nodesList n) f [a, b]
        = some ((f.add_clause [((a : ℕ) : ℤ), ((b : ℕ) : ℤ)] (Weight.soft 1)).add_clause
            [-((a : ℕ) : ℤ), -((b : ℕ) : ℤ)] (Weight.soft 1)) := by
      simp [maxCutStep, pyIndex_nodesList n a h1 h2, pyIndex_nodesList n b h3 h4]
    rw [hstep]
    have ih2 := ih ((f.add_clause [((a : ℕ) : ℤ), ((b : ℕ) : ℤ)] (Weight.soft 1)).add_clause
        [-((a : ℕ) : ℤ), -((b : ℕ) : ℤ)] (Weight.soft 1))
      (fun e he => h e (List.mem_cons_of_mem _ he))
    simpa [WCNFFormula.add_clause] using ih2

theorem min_vertex_cover_formula_eq (n : ℕ) (edges : List (List ℕ))
    (h : ∀ e ∈ edges, edge_ok n e = true) :
    min_vertex_cover_formula n edges
      = some (WCNFFormula.mk n
          ((List.range n).map (fun i => ([-((i + 1 : ℕ) : ℤ)], Weight.soft 1))
            ++ edges.map (fun e => (e.map (fun x => (x : ℤ)), Weight.hard)))) := by
  unfold min_vertex_cover_formula
  rw [mintVars_empty]
  simp only [foldl_soft_neg]
  rw [mvc_fold n edges _ h]
  simp [nodesList, List.map_map, Function.comp]

theorem max_cut_formula_eq (n : ℕ) (edges : List (List ℕ))
    (h : ∀ e ∈ edges, edge_ok n e = true) :
    max_cut_formula n edges
      = some (WCNFFormula.mk n
          (edges.flatMap (fun e =>
            [(e.map (fun x => (x : ℤ)), Weight.soft 1),
             (e.map (fun x => -(x : ℤ)), Weight.soft 1)]))) := by
  unfold max_cut_formula
  rw [mintVars_empty]
  rw [maxcut_fold n edges _ h]
  simp

theorem mem_insertEdge (es : List (List ℕ)) (x e : List ℕ) :
    e ∈ insertEdge es x ↔ e ∈ es ∨ e = x := by
  by_cases hx : x ∈ es
  · simp only [insertEdge, if_pos hx]
    constructor
    · exact Or.inl
    · rintro (h | rfl)
      · exact h
      · exact hx
  · simp [insertEdge, if_neg hx]

theorem insertEdge_nodup (es : List (List ℕ)) (x : List ℕ) (h : es.Nodup) :
    (insertEdge es x).Nodup := by
  by_cases hx : x ∈ es
  · simpa [insertEdge, if_pos hx] using h
  · rw [insertEdge, if_neg hx]
    simp only [List.nodup_append, List.nodup_cons, List.not_mem_nil, not_false_eq_true,
      List.nodup_nil, and_true, List.disjoint_singleton]
    exact ⟨h, trivial, hx⟩

theorem read_fold_edges_nodup (lines : List GLine) (st : Graph) (h : st.edges.Nodup) :
    (lines.foldl readStep st).edges.Nodup := by
  induction lines generalizing st with
  | nil => simpa
  | cons l ls ih =>
    rw [List.foldl_cons]
    cases l with
    | pheader a b => exact ih _ h
    | comment => exact ih _ h
    | edge a b => exact ih _ (insertEdge_nodup _ _ h)

theorem read_fold_edges_mem (lines : List GLine) (st : Graph) (e : List ℕ) :
    e ∈ (lines.foldl readStep st).edges ↔
      e ∈ st.edges ∨ ∃ a b, GLine.edge a b ∈ lines ∧ canonEdge a b = e := by
  induction lines generalizing st with
  | nil => simp
  | cons l ls ih =>
    rw [List.foldl_cons]
    cases l with
    | pheader a b =>
      rw [ih]
      simp [readStep]
    | comment =>
      rw [ih]
      simp [readStep]
    | edge a b =>
      rw [ih]
      simp only [readStep, mem_insertEdge, List.mem_cons]
      constructor
      · rintro ((h | rfl) | ⟨a2, b2, hmem, hc⟩)
        · exact Or.inl h
        · exact Or.inr ⟨a, b, Or.inl rfl, rfl⟩
        · exact Or.inr ⟨a2, b2, Or.inr hmem, hc⟩
      · rintro (h | ⟨a2, b2, hline | hmem, hc⟩)
        · exact Or.inl (Or.inl h)
        · cases hline
          exact Or.inl (Or.inr hc.symm)
        · exact Or.inr ⟨a2, b2, hmem, hc⟩

theorem read_fold_edges_filter (lines : List GLine) (st st2 : Graph)
    (h : st.edges = st2.edges) :
    (lines.foldl readStep st).edges = ((lines.filter isEdgeLine).foldl readStep st2).edges := by
  induction lines generalizing st st2 with
  | nil => simpa
  | cons l ls ih =>
    cases l with
    | pheader a b =>
      rw [List.foldl_cons]
      have : (GLine.pheader a b :: ls).filter isEdgeLine = ls.filter isEdgeLine := by
        simp [List.filter, isEdgeLine]
      rw [this]
      exact ih _ _ h
    | comment =>
      rw [List.foldl_cons]
      have : (GLine.comment :: ls).filter isEdgeLine = ls.filter isEdgeLine := by
        simp [List.filter, isEdgeLine]
      rw [this]
      exact ih _ _ h
    | edge a b =>
      have : (GLine.edge a b :: ls).filter isEdgeLine
          = GLine.edge a b :: ls.filter isEdgeLine := by
        simp [List.filter, isEdgeLine]
      rw [this, List.foldl_cons, List.foldl_cons]
      exact ih _ _ (by simp [readStep, h])

theorem canonEdge_comm (a b : ℕ) : canonEdge b a = canonEdge a b := by
  unfold canonEdge
  split_ifs <;> simp_all <;> omega

theorem canonEdge_inj (a b c d : ℕ) (h : canonEdge c d = canonEdge a b) :
    (c = a ∧ d = b) ∨ (c = b ∧ d = a) := by
  unfold canonEdge at h
  split_ifs at h <;> simp_all <;> omega

theorem foldlM_none_of_mem_single (step : WCNFFormula → List ℕ → Option WCNFFormula) (k : ℕ)
    (hstep : ∀ f, step f [k] = none)
    (edges : List (List ℕ)) (f : WCNFFormula) (h : [k] ∈ edges) :
    edges.foldlM step f = none := by
  induction edges generalizing f with
  | nil => cases h
  | cons e es ih =>
    rw [List.foldlM_cons]
    rcases List.mem_cons.mp h with he | he
    · rw [← he, hstep f]
      rfl
    · cases hs : step f e with
      | none => rfl
      | some f2 => simpa using ih f2 he

theorem mvcStep_single (nodes : List ℤ) (f : WCNFFormula) (k : ℕ) :
    mvcStep nodes f [k] = none := rfl

theorem maxCutStep_single (nodes : List ℤ) (f : WCNFFormula) (k : ℕ) :
    maxCutStep nodes f [k] = none := rfl

/-- C3: for every graph with `n` nodes, `min_vertex_cover` builds a formula
that mints exactly `n` variables (node `k` mapped to variable `k`), contains
exactly one soft clause `[-k]` of weight 1 per node, one hard clause
`[e1, e2]` per stored edge, and no other clauses; and its decode returns
exactly the nodes whose variable is positive in the returned assignment. -/
theorem c3_min_vertex_cover (n : ℕ) (edges : List (List ℕ))
    (h : ∀ e ∈ edges, edge_ok n e = true) :
    min_vertex_cover_formula n edges
      = some (WCNFFormula.mk n
          ((List.range n).map (fun i => ([-((i + 1 : ℕ) : ℤ)], Weight.soft 1))
            ++ edges.map (fun e => (e.map (fun x => (x : ℤ)), Weight.hard))))
    ∧ ∀ model : List ℤ,
        (∀ i, i < model.length →
          model.getD i 0 = ((i + 1 : ℕ) : ℤ) ∨ model.getD i 0 = -((i + 1 : ℕ) : ℤ)) →
        ∀ k : ℤ, k ∈ translateModel model ↔
          ∃ i, i < model.length ∧ k = ((i + 1 : ℕ) : ℤ) ∧ model.getD i 0 = k := by
  refine ⟨min_vertex_cover_formula_eq n edges h, ?_⟩
  intro model hsign k
  simp only [translateModel, List.mem_filter, decide_eq_true_eq]
  constructor
  · rintro ⟨hk, hpos⟩
    obtain ⟨i, hi⟩ := List.mem_iff_get.mp hk
    have hgd : model.getD i.1 0 = k := by
      rw [List.getD_eq_getElem model 0 i.2]
      simpa [List.get_eq_getElem] using hi
    rcases hsign i.1 i.2 with hs | hs
    · exact ⟨i.1, i.2, by rw [← hgd, hs], hgd⟩
    · exfalso
      rw [hgd] at hs
      have : ((i.1 + 1 : ℕ) : ℤ) > 0 := by exact_mod_cast Nat.succ_pos i.1
      omega
  · rintro ⟨i, hlen, hk, hgd⟩
    have hmem : model.getD i 0 ∈ model := by
      rw [List.getD_eq_getElem model 0 hlen]
      exact List.getElem_mem hlen
    rw [hgd] at hmem
    have hpos : (0 : ℤ) < k := by
      rw [hk]
      exact_mod_cast Nat.succ_pos i
    exact ⟨hmem, hpos⟩

/-- Witness for C3 at the concrete graph with 2 nodes and the single edge
`(1, 2)`. -/
theorem c3_witness :
    (∀ e ∈ [[1, 2]], edge_ok 2 e = true)
    ∧ (min_vertex_cover_formula 2 [[1, 2]]
        = some (WCNFFormula.mk 2
            ((List.range 2).map (fun i => ([-((i + 1 : ℕ) : ℤ)], Weight.soft 1))
              ++ [[1, 2]].map (fun e => (e.map (fun x => (x : ℤ)), Weight.hard))))
       ∧ ∀ model : List ℤ,
          (∀ i, i < model.length →
            model.getD i 0 = ((i + 1 : ℕ) : ℤ) ∨ model.getD i 0 = -((i + 1 : ℕ) : ℤ)) →
          ∀ k : ℤ, k ∈ translateModel model ↔
            ∃ i, i < model.length ∧ k = ((i + 1 : ℕ) : ℤ) ∧ model.getD i 0 = k) :=
  ⟨by decide, c3_min_vertex_cover 2 [[1, 2]] (by decide)⟩

/-- C5: for every graph, `max_cut` builds a formula with no hard clauses and,
for each stored edge `(e1, e2)`, exactly the two weight-1 soft clauses
`[e1, e2]` and `[-e1, -e2]`, adding nothing for non-edges. -/
theorem c5_max_cut (n : ℕ) (edges : List (List ℕ))
    (h : ∀ e ∈ edges, edge_ok n e = true) :
    max_cut_formula n edges
      = some (WCNFFormula.mk n
          (edges.flatMap (fun e =>
            [(e.map (fun x => (x : ℤ)), Weight.soft 1),
             (e.map (fun x => -(x : ℤ)), Weight.soft 1)])))
    ∧ ∀ f, max_cut_formula n edges = some f → ∀ c ∈ f.clauses, c.2 ≠ Weight.hard := by
  refine ⟨max_cut_formula_eq n edges h, ?_⟩
  intro f hf c hc
  rw [max_cut_formula_eq n edges h] at hf
  cases hf
  simp only [List.mem_flatMap, List.mem_cons, List.not_mem_nil, or_false] at hc
  obtain ⟨e, -, hce⟩ := hc
  rcases hce with rfl | rfl <;> simp

/-- Witness for C5 at the concrete graph with 2 nodes and the single edge
`(1, 2)`. -/
theorem c5_witness :
    (∀ e ∈ [[1, 2]], edge_ok 2 e = true)
    ∧ (max_cut_formula 2 [[1, 2]]
        = some (WCNFFormula.mk 2
            ([[1, 2]].flatMap (fun e =>
              [(e.map (fun x => (x : ℤ)), Weight.soft 1),
               (e.map (fun x => -(x : ℤ)), Weight.soft 1)])))
       ∧ ∀ f, max_cut_formula 2 [[1, 2]] = some f → ∀ c ∈ f.clauses, c.2 ≠ Weight.hard) :=
  ⟨by decide, c5_max_cut 2 [[1, 2]] (by decide)⟩

/-- C6: for every assignment that satisfies all hard clauses of the
min-vertex-cover formula and assigns a sign to each of the variables
`1, …, n`, the decoded cover contains at least one endpoint of every edge. -/
theorem c6_cover_soundness (n : ℕ) (edges : List (List ℕ)) (f : WCNFFormula)
    (hf : min_vertex_cover_formula n edges = some f)
    (hedges : ∀ e ∈ edges, edge_ok n e = true)
    (model : List ℤ) (hlen : model.length = n)
    (hsign : ∀ i, i < model.length →
      model.getD i 0 = ((i + 1 : ℕ) : ℤ) ∨ model.getD i 0 = -((i + 1 : ℕ) : ℤ))
    (hsat : ∀ c ∈ f.clauses, c.2 = Weight.hard → ∃ l ∈ c.1, l ∈ model)
    (u v : ℕ) (he : [u, v] ∈ edges) :
    ((u : ℕ) : ℤ) ∈ translateModel model ∨ ((v : ℕ) : ℤ) ∈ translateModel model := by
  rw [min_vertex_cover_formula_eq n edges hedges] at hf
  injection hf with hf
  obtain ⟨a, b, hab, h1, h2, h3, h4⟩ := (edge_ok_iff n [u, v]).mp (hedges _ he)
  have hau : a = u ∧ b = v := by
    simp only [List.cons.injEq, and_true] at hab
    exact ⟨hab.1.symm, hab.2.symm⟩
  obtain ⟨rfl, rfl⟩ := hau
  have hclause : (([(a : ℤ), (b : ℤ)] : List ℤ), Weight.hard) ∈ f.clauses := by
    rw [← hf]
    refine List.mem_append_right _ ?_
    exact List.mem_map.mpr ⟨[a, b], he, by simp⟩
  obtain ⟨l, hl, hlm⟩ := hsat _ hclause rfl
  have hpos_a : (0 : ℤ) < (a : ℤ) := by exact_mod_cast h1
  have hpos_b : (0 : ℤ) < (b : ℤ) := by exact_mod_cast h3
  simp only [List.mem_cons, List.not_mem_nil, or_false] at hl
  rcases hl with rfl | rfl
  · exact Or.inl (List.mem_filter.mpr ⟨hlm, by simpa using hpos_a⟩)
  · exact Or.inr (List.mem_filter.mpr ⟨hlm, by simpa using hpos_b⟩)

/-- Witness for C6 at the graph with 2 nodes, the single edge `(1, 2)` and
the model `[1, -2]` (node 1 selected). -/
theorem c6_witness :
    (min_vertex_cover_formula 2 [[1, 2]]
        = some (WCNFFormula.mk 2 [([-1], Weight.soft 1), ([-2], Weight.soft 1),
            ([1, 2], Weight.hard)]))
    ∧ (((1 : ℕ) : ℤ) ∈ translateModel [1, -2] ∨ ((2 : ℕ) : ℤ) ∈ translateModel [1, -2]) :=
  ⟨by decide, c6_cover_soundness 2 [[1, 2]]
    (WCNFFormula.mk 2 [([-1], Weight.soft 1), ([-2], Weight.soft 1), ([1, 2], Weight.hard)])
    (by decide) (by decide) [1, -2] (by decide) (by decide) (by decide) 1 2 (by decide)⟩

/-- C9: duplicate edge lines for the same unordered pair (in either order)
collapse to exactly one stored edge; the parsed edges are exactly those of
the edge lines, so a header mismatch (reported only through the warning
condition `edgeWarning`) does not affect parsing, which always completes. -/
theorem c9_read_stream (lines : List GLine) (a b : ℕ) :
    (read_stream lines).edges.Nodup
    ∧ (canonEdge a b ∈ (read_stream lines).edges ↔
        GLine.edge a b ∈ lines ∨ GLine.edge b a ∈ lines)
    ∧ (read_stream lines).edges = (read_stream (lines.filter isEdgeLine)).edges := by
  refine ⟨read_fold_edges_nodup lines _ (by simp), ?_,
    read_fold_edges_filter lines _ _ rfl⟩
  rw [read_stream, read_fold_edges_mem]
  simp only [List.not_mem_nil, false_or]
  constructor
  · rintro ⟨a2, b2, hmem, hc⟩
    rcases canonEdge_inj a b a2 b2 hc with ⟨rfl, rfl⟩ | ⟨rfl, rfl⟩
    · exact Or.inl hmem
    · exact Or.inr hmem
  · rintro (h | h)
    · exact ⟨a, b, h, rfl⟩
    · exact ⟨b, a, h, canonEdge_comm a b⟩

/-- Counterexample to C10 as stated: on the graph with one node and the
self-loop line `e 1 1`, the parsed edge set does contain the one-element
tuple `[1]`, and `min_vertex_cover` and `max_cut` fail on unpacking it, but
`max_clique` never unpacks stored edges: it completes and returns a
well-formed formula, so it is not true that all three reductions fail. -/
theorem c10_counterexample :
    (read_stream [GLine.pheader 1 1, GLine.edge 1 1]).edges = [[1]]
    ∧ min_vertex_cover_formula 1 [[1]] = none
    ∧ max_cut_formula 1 [[1]] = none
    ∧ max_clique_formula 1 [[1]] = WCNFFormula.mk 1 [([1], Weight.soft 1)] := by
  decide

/-- C10 as amended: a self-loop line `e k k` stores the one-element tuple
`[k]`; `min_vertex_cover` and `max_cut` fail when unpacking any such edge
(and are total when every stored edge has two in-range distinct endpoints),
while `max_clique` is total. -/
theorem c10_self_loop (k n : ℕ) (lines : List GLine) (edges : List (List ℕ))
    (h1 : GLine.edge k k ∈ lines) (h2 : [k] ∈ edges) :
    [k] ∈ (read_stream lines).edges
    ∧ min_vertex_cover_formula n edges = none
    ∧ max_cut_formula n edges = none
    ∧ ∀ edges2 : List (List ℕ), (∀ e ∈ edges2, edge_ok n e = true) →
        (min_vertex_cover_formula n edges2).isSome = true
        ∧ (max_cut_formula n edges2).isSome = true := by
  refine ⟨?_, ?_, ?_, ?_⟩
  · rw [read_stream, read_fold_edges_mem]
    exact Or.inr ⟨k, k, h1, by simp [canonEdge]⟩
  · unfold min_vertex_cover_formula
    exact foldlM_none_of_mem_single _ k (fun f => rfl) edges _ h2
  · unfold max_cut_formula
    exact foldlM_none_of_mem_single _ k (fun f => rfl) edges _ h2
  · intro edges2 hok
    rw [min_vertex_cover_formula_eq n edges2 hok, max_cut_formula_eq n edges2 hok]
    exact ⟨rfl, rfl⟩

/-- Witness for the amended C10 at the one-node graph with the self-loop
`e 1 1`. -/
theorem c10_witness :
    GLine.edge 1 1 ∈ [GLine.pheader 1 1, GLine.edge 1 1]
    ∧ [1] ∈ [[1]]
    ∧ ([1] ∈ (read_stream [GLine.pheader 1 1, GLine.edge 1 1]).edges
       ∧ min_vertex_cover_formula 1 [[1]] = none
       ∧ max_cut_formula 1 [[1]] = none
       ∧ ∀ edges2 : List (List ℕ), (∀ e ∈ edges2, edge_ok 1 e = true) →
          (min_vertex_cover_formula 1 edges2).isSome = true
          ∧ (max_cut_formula 1 edges2).isSome = true) :=
  ⟨by decide, by decide,
    c10_self_loop 1 1 [GLine.pheader 1 1, GLine.edge 1 1] [[1]] (by decide) (by decide)⟩

theorem cliquePairs_nodup (n : ℕ) : (cliquePairs n).Nodup := by
  refine List.Nodup.map ?_ (List.Nodup.product (List.nodup_range n) (List.nodup_range n))
  intro q p hqp
  simp only [Prod.mk.injEq] at hqp
  exact Prod.ext (by omega) (by omega)

theorem mem_cliquePairs (n : ℕ) (q : ℕ × ℕ) :
    q ∈ cliquePairs n ↔ 1 ≤ q.1 ∧ q.1 ≤ n ∧ 1 ≤ q.2 ∧ q.2 ≤ n := by
  unfold cliquePairs
  rw [List.mem_map]
  constructor
  · rintro ⟨p, hp, rfl⟩
    have hp2 : p.1 ∈ List.range n ∧ p.2 ∈ List.range n := List.mem_product.mp (by
      rw [show p = (p.1, p.2) from rfl] at hp
      exact hp)
    simp only [List.mem_range] at hp2
    simp only
    omega
  · rintro ⟨h1, h2, h3, h4⟩
    refine ⟨(q.1 - 1, q.2 - 1), ?_, ?_⟩
    · exact List.mem_product.mpr (by simp only [List.mem_range]; omega)
    · refine Prod.ext ?_ ?_ <;> simp only <;> omega

theorem foldl_guard_hard (edges : List (List ℕ)) (ps : List (ℕ × ℕ)) (f : WCNFFormula) :
    ps.foldl (fun f q =>
      if [q.1, q.2] ∉ edges ∧ [q.2, q.1] ∉ edges ∧ q.1 < q.2 then
        f.add_clause [-(q.1 : ℤ), -(q.2 : ℤ)] Weight.hard
      else f) f
    = WCNFFormula.mk f.num_vars
        (f.clauses ++ (ps.filter (fun q =>
            decide ([q.1, q.2] ∉ edges ∧ [q.2, q.1] ∉ edges ∧ q.1 < q.2))).map
          (fun q => ([-(q.1 : ℤ), -(q.2 : ℤ)], Weight.hard))) := by
  induction ps generalizing f with
  | nil => simp
  | cons q qs ih =>
    rw [List.foldl_cons, List.filter_cons]
    by_cases hq : [q.1, q.2] ∉ edges ∧ [q.2, q.1] ∉ edges ∧ q.1 < q.2
    · rw [if_pos hq, ih]
      simp [hq, WCNFFormula.add_clause]
    · rw [if_neg hq, ih]
      simp [hq]

theorem max_clique_formula_eq (n : ℕ) (edges : List (List ℕ)) :
    max_clique_formula n edges
      = WCNFFormula.mk n
          ((List.range n).map (fun i => ([((i + 1 : ℕ) : ℤ)], Weight.soft 1))
            ++ ((cliquePairs n).filter (fun q =>
                decide ([q.1, q.2] ∉ edges ∧ [q.2, q.1] ∉ edges ∧ q.1 < q.2))).map
              (fun q => ([-(q.1 : ℤ), -(q.2 : ℤ)], Weight.hard))) := by
  unfold max_clique_formula
  rw [mintVars_empty]
  simp only [foldl_soft_pos]
  rw [foldl_guard_hard]
  simp [nodesList, List.map_map, Function.comp]

/-- The soft clauses of the max-clique formula. -/
def cliqueSofts (n : ℕ) : List (List ℤ × Weight) :=
  (List.range n).map (fun i => (([((i + 1 : ℕ) : ℤ)] : List ℤ), Weight.soft 1))

/-- The hard clauses of the max-clique formula. -/
def cliqueHards (n : ℕ) (edges : List (List ℕ)) : List (List ℤ × Weight) :=
  ((cliquePairs n).filter (fun q =>
      decide ([q.1, q.2] ∉ edges ∧ [q.2, q.1] ∉ edges ∧ q.1 < q.2))).map
    (fun q => (([-(q.1 : ℤ), -(q.2 : ℤ)] : List ℤ), Weight.hard))

theorem max_clique_clauses (n : ℕ) (edges : List (List ℕ)) :
    (max_clique_formula n edges).clauses = cliqueSofts n ++ cliqueHards n edges := by
  rw [max_clique_formula_eq]
  rfl

theorem mem_cliqueSofts (n : ℕ) (c : List ℤ × Weight) :
    c ∈ cliqueSofts n ↔ ∃ k, 1 ≤ k ∧ k ≤ n ∧ c = ([((k : ℕ) : ℤ)], Weight.soft 1) := by
  unfold cliqueSofts
  rw [List.mem_map]
  constructor
  · rintro ⟨i, hi, rfl⟩
    rw [List.mem_range] at hi
    exact ⟨i + 1, by omega, by omega, rfl⟩
  · rintro ⟨k, h1, h2, rfl⟩
    refine ⟨k - 1, List.mem_range.mpr (by omega), ?_⟩
    have : k - 1 + 1 = k := by omega
    rw [this]

theorem mem_cliqueHards (n : ℕ) (edges : List (List ℕ)) (c : List ℤ × Weight) :
    c ∈ cliqueHards n edges ↔ ∃ i j, c = ([-((i : ℕ) : ℤ), -((j : ℕ) : ℤ)], Weight.hard)
      ∧ 1 ≤ i ∧ i < j ∧ j ≤ n ∧ [i, j] ∉ edges ∧ [j, i] ∉ edges := by
  unfold cliqueHards
  rw [List.mem_map]
  constructor
  · rintro ⟨q, hq, rfl⟩
    rw [List.mem_filter] at hq
    obtain ⟨hmem, hcond⟩ := hq
    rw [mem_cliquePairs] at hmem
    simp only [decide_eq_true_eq] at hcond
    exact ⟨q.1, q.2, rfl, by omega, hcond.2.2, by omega, hcond.1, hcond.2.1⟩
  · rintro ⟨i, j, rfl, h1, h2, h3, h4, h5⟩
    refine ⟨(i, j), List.mem_filter.mpr ⟨?_, ?_⟩, rfl⟩
    · rw [mem_cliquePairs]
      simp only
      omega
    · simp only [decide_eq_true_eq]
      exact ⟨h4, h5, h2⟩

theorem cliqueSofts_nodup (n : ℕ) : (cliqueSofts n).Nodup := by
  refine List.Nodup.map ?_ (List.nodup_range n)
  intro a b hab
  simp only [Prod.mk.injEq, List.cons.injEq, and_true] at hab
  exact_mod_cast Nat.add_right_cancel (by exact_mod_cast hab)

theorem cliqueHards_nodup (n : ℕ) (edges : List (List ℕ)) : (cliqueHards n edges).Nodup := by
  refine List.Nodup.map ?_ (List.Nodup.filter _ (cliquePairs_nodup n))
  intro a b hab
  simp only [Prod.mk.injEq, List.cons.injEq, and_true, neg_inj, Nat.cast_inj] at hab
  exact Prod.ext hab.1 hab.2

/-- C4: for every graph with `n` nodes, `max_clique` builds exactly one soft
clause `[k]` of weight 1 per node, exactly one hard clause `[-i, -j]` for
every unordered pair `i < j` of nodes that is not a stored edge (in either
order), no hard clause for any edge, no repeated clause, and nothing else. -/
theorem c4_max_clique (n : ℕ) (edges : List (List ℕ)) (k i j : ℕ) :
    (max_clique_formula n edges).clauses.Nodup
    ∧ (([((k : ℕ) : ℤ)], Weight.soft 1) ∈ (max_clique_formula n edges).clauses ↔
        1 ≤ k ∧ k ≤ n)
    ∧ (([-((i : ℕ) : ℤ), -((j : ℕ) : ℤ)], Weight.hard) ∈ (max_clique_formula n edges).clauses ↔
        1 ≤ i ∧ i < j ∧ j ≤ n ∧ ¬ ([i, j] ∈ edges ∨ [j, i] ∈ edges))
    ∧ ∀ c ∈ (max_clique_formula n edges).clauses,
        (∃ k2 : ℕ, c = ([((k2 : ℕ) : ℤ)], Weight.soft 1))
        ∨ ∃ i2 j2 : ℕ, c = ([-((i2 : ℕ) : ℤ), -((j2 : ℕ) : ℤ)], Weight.hard) := by
  rw [max_clique_clauses]
  refine ⟨?_, ?_, ?_, ?_⟩
  · rw [List.nodup_append]
    refine ⟨cliqueSofts_nodup n, cliqueHards_nodup n edges, ?_⟩
    intro c hc1 hc2
    obtain ⟨k1, -, -, rfl⟩ := (mem_cliqueSofts n c).mp hc1
    obtain ⟨i1, j1, heq, -⟩ := (mem_cliqueHards n edges _).mp hc2
    simp only [Prod.mk.injEq] at heq
    exact absurd heq.2 (by intro h; cases h)
  · rw [List.mem_append]
    constructor
    · rintro (h | h)
      · obtain ⟨k2, h1, h2, heq⟩ := (mem_cliqueSofts n _).mp h
        simp only [Prod.mk.injEq, List.cons.injEq, and_true, Nat.cast_inj] at heq
        omega
      · obtain ⟨i2, j2, heq, -⟩ := (mem_cliqueHards n edges _).mp h
        simp only [Prod.mk.injEq] at heq
        exact absurd heq.2 (by intro h2; cases h2)
    · intro hk
      exact Or.inl ((mem_cliqueSofts n _).mpr ⟨k, hk.1, hk.2, rfl⟩)
  · rw [List.mem_append]
    constructor
    · rintro (h | h)
      · obtain ⟨k2, -, -, heq⟩ := (mem_cliqueSofts n _).mp h
        simp only [Prod.mk.injEq] at heq
        exact absurd heq.2 (by intro h2; cases h2)
      · obtain ⟨i2, j2, heq, hb1, hb2, hb3, hb4, hb5⟩ := (mem_cliqueHards n edges _).mp h
        simp only [Prod.mk.injEq, List.cons.injEq, and_true, neg_inj, Nat.cast_inj] at heq
        obtain ⟨rfl, rfl⟩ := heq
        exact ⟨hb1, hb2, hb3, not_or.mpr ⟨hb4, hb5⟩⟩
    · rintro ⟨h1, h2, h3, h4⟩
      rw [not_or] at h4
      exact Or.inr ((mem_cliqueHards n edges _).mpr ⟨i, j, rfl, h1, h2, h3, h4.1, h4.2⟩)
  · intro c hc
    rcases List.mem_append.mp hc with h | h
    · obtain ⟨k2, -, -, rfl⟩ := (mem_cliqueSofts n _).mp h
      exact Or.inl ⟨k2, rfl⟩
    · obtain ⟨i2, j2, rfl, -⟩ := (mem_cliqueHards n edges _).mp h
      exact Or.inr ⟨i2, j2, rfl⟩

/-- A Python value as far as the `SPU` class stores and compares them:
an integer or a string.  Python's `==` across the two types is `False`,
which is what makes the validation helpers of `spu_solver.py` degenerate. -/
inductive PyVal where
  | int (i : ℤ)
  | str (s : String)
deriving DecidableEq

/-- Python `==` on the embedded values: equal only within the same type. -/
def pyEq : PyVal → PyVal → Bool
  | PyVal.int i, PyVal.int j => decide (i = j)
  | PyVal.str a, PyVal.str b => decide (a = b)
  | _, _ => false

/-- Python dictionary assignment `d[k] = v`: replaces the value of an
existing key in place, otherwise appends (insertion order preserved). -/
def dictSet {κ α : Type} [DecidableEq κ] : List (κ × α) → κ → α → List (κ × α)
  | [], k, v => [(k, v)]
  | p :: rest, k, v => if p.1 = k then (k, v) :: rest else p :: dictSet rest k v

/-- Python dictionary lookup `d.get(k)`: `None` when the key is absent. -/
def dictGet {κ α : Type} [DecidableEq κ] : List (κ × α) → κ → Option α
  | [], _ => none
  | p :: rest, k => if p.1 = k then some p.2 else dictGet rest k

/-- The attributes of an `SPU` instance that the parser mutates. -/
structure SPUState where
  packages : List (String × ℕ)
  package_ids : List (ℕ × String)
  num_packages : ℕ
  formula : WCNFFormula
  dependencies : List (PyVal × List (List String))
  conflicts : List (PyVal × List String)
deriving DecidableEq

/-- The fatal exits of `spu_solver.py`: `check_package` calls `sys.exit(2)`
on an undeclared package, the post-parse count check calls `sys.exit(1)`,
and an uncaught `KeyError` (raised by `self.packages[...]` on a missing
key) aborts with a traceback. -/
inductive SPUError where
  | unknownPackage
  | countMismatch
  | keyError
deriving DecidableEq

/-- The process exit status of each fatal path (Python exits with status 1
on an uncaught exception). -/
def exitCode : SPUError → ℕ
  | SPUError.unknownPackage => 2
  | SPUError.countMismatch => 1
  | SPUError.keyError => 1

/-- Python `d[k]` on a read: raises `KeyError` when the key is absent. -/
def getItem {κ α : Type} [DecidableEq κ] (d : List (κ × α)) (k : κ) : Except SPUError α :=
  match dictGet d k with
  | some v => Except.ok v
  | none => Except.error SPUError.keyError

/-- `SPU.check_package`: exits with status 2 when the package was never
declared. -/
def check_package (st : SPUState) (package : String) : Except SPUError Unit :=
  if dictGet st.packages package = none then Except.error SPUError.unknownPackage
  else Except.ok ()

/-- `SPU.manage_package`: assign the next dense id, record the name-id
bijection, mint a formula variable, add the soft clause `[id]` of weight 1,
and initialize the validation tables.  The lookup
`self.packages[package]` immediately after the assignment cannot fail and is
embedded with a default. -/
def manage_package (st : SPUState) (package : String) : SPUState :=
  let package_id := st.packages.length + 1
  let packages := dictSet st.packages package package_id
  let package_ids := dictSet st.package_ids package_id package
  let f1 := (st.formula.new_var).1
  let f2 := f1.add_clause [(((dictGet packages package).getD 0 : ℕ) : ℤ)] (Weight.soft 1)
  SPUState.mk packages package_ids st.num_packages f2
    (dictSet st.dependencies (PyVal.str package) [])
    (dictSet st.conflicts (PyVal.str package) [])

/-- The loop of `SPU.manage_dependency` over `dependencies[1:]`: the source
checks `dependencies[1]` (the first alternative) on every iteration instead
of the iterated alternative, then reads `self.packages[dependency]`, which
raises `KeyError` for an undeclared later alternative. -/
def dep_loop (st : SPUState) (alts : List String) : Except SPUError (List ℤ) :=
  alts.foldlM (fun (acc : List ℤ) dependency => do
    let _ ← check_package st alts.headI
    let v ← getItem st.packages dependency
    pure (acc ++ [((v : ℕ) : ℤ)])) []

/-- `SPU.manage_dependency` on a line `d p alt1 … altm`. -/
def manage_dependency (st : SPUState) (p : String) (alts : List String) :
    Except SPUError SPUState := do
  let _ ← check_package st p
  let new_clause ← dep_loop st alts
  let old ← getItem st.dependencies (PyVal.str p)
  let deps := dictSet st.dependencies (PyVal.str p) (old ++ [alts])
  let dependent ← getItem st.packages p
  let f := st.formula.add_clause ([-((dependent : ℕ) : ℤ)] ++ new_clause) Weight.hard
  pure (SPUState.mk st.packages st.package_ids st.num_packages f deps st.conflicts)

/-- `SPU.manage_conflict` on a line `c a b`: the source checks only
`conflicts[1]`, so an undeclared first member raises `KeyError` at
`self.packages[conflicts[0]]`. -/
def manage_conflict (st : SPUState) (a b : String) : Except SPUError SPUState := do
  let _ ← check_package st b
  let conflictable ← getItem st.packages a
  let conflict ← getItem st.packages b
  let f := st.formula.add_clause
    ([-((conflictable : ℕ) : ℤ)] ++ [-((conflict : ℕ) : ℤ)]) Weight.hard
  let old ← getItem st.conflicts (PyVal.str a)
  let confs := dictSet st.conflicts (PyVal.str a) (old ++ [b])
  pure (SPUState.mk st.packages st.package_ids st.num_packages f st.dependencies confs)

/-- A tokenized line of a package-upgrade input file (`SPU.parse_and_solve`):
header `p <keyword> <num>`, declaration `n <name>`, dependency
`d <name> <alt1> …`, conflict `c <name1> <name2>`, anything else ignored. -/
inductive SPULine where
  | pline (n : ℕ)
  | nline (name : String)
  | dline (package : String) (alts : List String)
  | cline (a b : String)
  | other
deriving DecidableEq

/-- Dispatch of one input line, as in the body of the parse loop. -/
def parse_line (st : SPUState) : SPULine → Except SPUError SPUState
  | SPULine.pline n =>
    Except.ok (SPUState.mk st.packages st.package_ids n st.formula st.dependencies st.conflicts)
  | SPULine.nline name => Except.ok (manage_package st name)
  | SPULine.dline p alts => manage_dependency st p alts
  | SPULine.cline a b => manage_conflict st a b
  | SPULine.other => Except.ok st

/-- The parse loop of `SPU.parse_and_solve`: lines are processed in order and
the first fatal exit aborts the run. -/
def parse_lines : SPUState → List SPULine → Except SPUError SPUState
  | st, [] => Except.ok st
  | st, l :: rest =>
    match parse_line st l with
    | Except.ok st2 => parse_lines st2 rest
    | Except.error e => Except.error e

/-- The state of a freshly constructed `SPU` instance. -/
def initSPU : SPUState := SPUState.mk [] [] 0 emptyFormula [] []

/-- `SPU.parse_and_solve`: parse all lines, then exit with status 1 when the
number of declared packages differs from the header count, otherwise hand
the accumulated formula to the solver. -/
def parse_and_solve (lines : List SPULine) : Except SPUError WCNFFormula :=
  match parse_lines initSPU lines with
  | Except.error e => Except.error e
  | Except.ok st =>
    if st.packages.length ≠ st.num_packages then Except.error SPUError.countMismatch
    else Except.ok st.formula

/-- Whether an `Except` result is a success. -/
def isOkE {ε α : Type} : Except ε α → Bool
  | Except.ok _ => true
  | Except.error _ => false

/-- The state a successful parse produced (defaulting to the initial state,
used only to name the result of a parse that is proved successful). -/
def stateOf (r : Except SPUError SPUState) : SPUState :=
  match r with
  | Except.ok st => st
  | Except.error _ => initSPU

/-- The condition `item in model and item > 0` evaluated by the validation
helpers: `item` is a name string and `model` a list of integers, so the
membership test is always false under Python `==`; were it true, the
comparison `item > 0` between a `str` and an `int` would raise `TypeError`
(embedded as `none`). -/
def item_cond (item : String) (model : List ℤ) : Option Bool :=
  if model.any (fun p => pyEq (PyVal.str item) (PyVal.int p)) then none else some false

/-- The inner loop of `SPU.ok_dependencies` over one alternative set, with
Python's `break` on the first satisfied item. -/
def dep_sat (model : List ℤ) : List String → Option Bool
  | [] => some false
  | item :: rest => do
    let c ← item_cond item model
    if c then some true else dep_sat model rest

/-- `SPU.ok_dependencies`: note the lookup `self.dependencies.get(package)`
uses the integer variable `package` from the model while the table is keyed
by name strings, so it returns `None` and the method returns `True`. -/
def ok_dependencies (deps : List (PyVal × List (List String))) (package : ℤ)
    (model : List ℤ) : Option Bool :=
  match dictGet deps (PyVal.int package) with
  | none => some true
  | some ds => do
    let sat ← ds.foldlM (fun (acc : ℕ) dependance => do
        let s ← dep_sat model dependance
        pure (if s then acc + 1 else acc)) 0
    some (decide (sat = ds.length))

/-- The loop of `SPU.ok_conflicts` with its early `return False`. -/
def conf_loop (model : List ℤ) : List String → Option Bool
  | [] => some true
  | conflict :: rest => do
    let c ← item_cond conflict model
    if c then some false else conf_loop model rest

/-- `SPU.ok_conflicts`: same string-table-by-integer-key lookup as
`ok_dependencies`. -/
def ok_conflicts (confs : List (PyVal × List String)) (package : ℤ)
    (model : List ℤ) : Option Bool :=
  match dictGet confs (PyVal.int package) with
  | none => some true
  | some cs => conf_loop model cs

/-- The loop of `SPU.check_solution` over the model, with its `break` on the
first failed package. -/
def check_solution_loop (st : SPUState) (model : List ℤ) : List ℤ → Option Bool
  | [] => some true
  | package :: rest =>
    if 0 < package then do
      let d ← ok_dependencies st.dependencies package model
      if d then do
        let c ← ok_conflicts st.conflicts package model
        if c then check_solution_loop st model rest else some false
      else some false
    else check_solution_loop st model rest

/-- `SPU.check_solution`: the line printed after re-validating the model. -/
def check_solution (st : SPUState) (model : List ℤ) : Option String := do
  let correct ← check_solution_loop st model model
  some (if correct then "c VALIDATION OK" else "c VALIDATION WRONG")

/-- Lexicographic comparison of code-point lists: the order Python uses to
sort strings. -/
def natsLe : List ℕ → List ℕ → Bool
  | [], _ => true
  | _ :: _, [] => false
  | a :: as, b :: bs => if a = b then natsLe as bs else decide (a < b)

/-- Python string comparison `s1 <= s2`: lexicographic on code points. -/
def strLe (a b : String) : Bool := natsLe (a.data.map Char.toNat) (b.data.map Char.toNat)

theorem natsLe_trans : ∀ as bs cs, natsLe as bs = true → natsLe bs cs = true →
    natsLe as cs = true := by
  intro as
  induction as with
  | nil => intro bs cs h1 h2; rfl
  | cons a as ih =>
    intro bs cs h1 h2
    cases bs with
    | nil => simp [natsLe] at h1
    | cons b bs2 =>
      cases cs with
      | nil => simp [natsLe] at h2
      | cons c cs2 =>
        simp only [natsLe] at h1 h2 ⊢
        by_cases hab : a = b
        · subst hab
          rw [if_pos rfl] at h1
          by_cases hbc : a = c
          · subst hbc
            rw [if_pos rfl] at h2 ⊢
            exact ih bs2 cs2 h1 h2
          · rw [if_neg hbc] at h2 ⊢
            exact h2
        · rw [if_neg hab] at h1
          have hb : a < b := of_decide_eq_true h1
          by_cases hbc : b = c
          · subst hbc
            rw [if_neg hab]
            exact h1
          · rw [if_neg hbc] at h2
            have hc : b < c := of_decide_eq_true h2
            have hac : ¬ a = c := by omega
            rw [if_neg hac]
            exact decide_eq_true (by omega)

theorem natsLe_total : ∀ as bs, (natsLe as bs || natsLe bs as) = true := by
  intro as
  induction as with
  | nil => intro bs; simp [natsLe]
  | cons a as ih =>
    intro bs
    cases bs with
    | nil => simp [natsLe]
    | cons b bs2 =>
      simp only [natsLe]
      by_cases hab : a = b
      · subst hab
        rw [if_pos rfl, if_pos rfl]
        exact ih bs2
      · rw [if_neg hab, if_neg (Ne.symm hab)]
        simp only [Bool.or_eq_true, decide_eq_true_eq]
        omega

theorem strLe_trans (a b c : String) (h1 : strLe a b = true) (h2 : strLe b c = true) :
    strLe a c = true :=
  natsLe_trans _ _ _ h1 h2

theorem strLe_total (a b : String) : (strLe a b || strLe b a) = true :=
  natsLe_total _ _

/-- `SPU.print_solution`: the `o <cost>` line and the `v …` line listing, in
sorted order, the names of the packages whose model variable is negative
(`installed_packages` is the source's own — misleading — name for them);
`none` when `self.package_ids[abs(package)]` raises `KeyError`. -/
def print_solution (st : SPUState) (opt : ℤ) (model : List ℤ) : Option (List String) := do
  let installed_packages ← (model.filter (fun p => decide (p < 0))).mapM
    (fun p => dictGet st.package_ids p.natAbs)
  let sorted := installed_packages.mergeSort strLe
  some ["o " ++ toString opt, sorted.foldl (fun acc s => acc ++ " " ++ s) "v"]

/-- Modelled from the spec (the validation the source intends, for
comparison with `check_solution`): every package whose variable is positive
has, in each recorded dependency alternative-set, at least one member whose
variable is positive, and no recorded conflict partner with a positive
variable. -/
def spec_validation (st : SPUState) (model : List ℤ) : Bool :=
  st.packages.all (fun pkg =>
    if ((pkg.2 : ℕ) : ℤ) ∈ model then
      ((dictGet st.dependencies (PyVal.str pkg.1)).getD []).all (fun altset =>
        altset.any (fun q => (((dictGet st.packages q).getD 0 : ℕ) : ℤ) ∈ model))
      && ((dictGet st.conflicts (PyVal.str pkg.1)).getD []).all (fun q =>
        ¬ ((((dictGet st.packages q).getD 0 : ℕ) : ℤ) ∈ model))
    else true)

/-- The error carried by a failed run, if any. -/
def errOf {α : Type} (r : Except SPUError α) : Option SPUError :=
  match r with
  | Except.error e => some e
  | Except.ok _ => none

/-- How one parsed line transforms the list of declared package names
(Python dict keys: re-declaration keeps the original position). -/
def namesStep (acc : List String) : SPULine → List String
  | SPULine.nline s => if s ∈ acc then acc else acc ++ [s]
  | _ => acc

/-- How one parsed line transforms the header count. -/
def headStep (acc : ℕ) : SPULine → ℕ
  | SPULine.pline n => n
  | _ => acc

/-- The distinct declared package names of an input, in declaration order. -/
def declared_names (lines : List SPULine) : List String :=
  lines.foldl namesStep []

/-- The package count stated by the last header line (0 when there is
none, matching the initial `num_packages`). -/
def header_count (lines : List SPULine) : ℕ :=
  lines.foldl headStep 0

theorem dictSet_keys {α : Type} (d : List (String × α)) (k : String) (v : α) :
    (dictSet d k v).map Prod.fst
      = if k ∈ d.map Prod.fst then d.map Prod.fst else d.map Prod.fst ++ [k] := by
  induction d with
  | nil => simp [dictSet]
  | cons p rest ih =>
    simp only [dictSet]
    by_cases hp : p.1 = k
    · rw [if_pos hp]
      have : k ∈ (p :: rest).map Prod.fst := by simp [hp.symm]
      rw [if_pos this]
      simp [hp]
    · rw [if_neg hp]
      by_cases hk : k ∈ rest.map Prod.fst
      · have h1 : k ∈ (p :: rest).map Prod.fst := by simp [hk]
        rw [if_pos h1]
        simp only [List.map_cons, List.cons.injEq, true_and]
        rw [ih, if_pos hk]
      · have h1 : k ∉ (p :: rest).map Prod.fst := by
          simp only [List.map_cons, List.mem_cons]
          rintro (h | h)
          · exact hp h.symm
          · exact hk h
        rw [if_neg h1]
        simp only [List.map_cons, List.cons_append, List.cons.injEq, true_and]
        rw [ih, if_neg hk]

theorem manage_dependency_fields (st : SPUState) (p : String) (alts : List String)
    (st2 : SPUState) (h : manage_dependency st p alts = Except.ok st2) :
    st2.packages = st.packages ∧ st2.num_packages = st.num_packages := by
  unfold manage_dependency at h
  simp only [bind, Except.bind] at h
  repeat' split at h
  all_goals try exact Except.noConfusion h
  injection h with h2
  rw [← h2]
  exact ⟨rfl, rfl⟩

theorem manage_conflict_fields (st : SPUState) (a b : String)
    (st2 : SPUState) (h : manage_conflict st a b = Except.ok st2) :
    st2.packages = st.packages ∧ st2.num_packages = st.num_packages := by
  unfold manage_conflict at h
  simp only [bind, Except.bind] at h
  repeat' split at h
  all_goals try exact Except.noConfusion h
  injection h with h2
  rw [← h2]
  exact ⟨rfl, rfl⟩

theorem parse_lines_keys (lines : List SPULine) :
    ∀ st st2 : SPUState, parse_lines st lines = Except.ok st2 →
    st2.packages.map Prod.fst = lines.foldl namesStep (st.packages.map Prod.fst)
    ∧ st2.num_packages = lines.foldl headStep st.num_packages := by
  induction lines with
  | nil =>
    intro st st2 h
    simp only [parse_lines] at h
    injection h with h2
    rw [← h2]
    exact ⟨rfl, rfl⟩
  | cons l ls ih =>
    intro st st2 h
    simp only [parse_lines] at h
    cases l with
    | pline n =>
      simp only [parse_line] at h
      obtain ⟨hk, hn⟩ := ih _ _ h
      exact ⟨hk, hn⟩
    | nline name =>
      simp only [parse_line] at h
      obtain ⟨hk, hn⟩ := ih _ _ h
      constructor
      · rw [hk]
        simp only [List.foldl_cons, manage_package, namesStep]
        rw [dictSet_keys]
      · rw [hn]
        simp only [List.foldl_cons, manage_package, headStep]
    | dline p alts =>
      simp only [parse_line] at h
      cases hm : manage_dependency st p alts with
      | error e => rw [hm] at h; exact Except.noConfusion h
      | ok st3 =>
        rw [hm] at h
        obtain ⟨hk3, hn3⟩ := manage_dependency_fields st p alts st3 hm
        obtain ⟨hk, hn⟩ := ih _ _ h
        constructor
        · rw [hk, hk3]
          simp only [List.foldl_cons, namesStep]
        · rw [hn, hn3]
          simp only [List.foldl_cons, headStep]
    | cline a b =>
      simp only [parse_line] at h
      cases hm : manage_conflict st a b with
      | error e => rw [hm] at h; exact Except.noConfusion h
      | ok st3 =>
        rw [hm] at h
        obtain ⟨hk3, hn3⟩ := manage_conflict_fields st a b st3 hm
        obtain ⟨hk, hn⟩ := ih _ _ h
        constructor
        · rw [hk, hk3]
          simp only [List.foldl_cons, namesStep]
        · rw [hn, hn3]
          simp only [List.foldl_cons, headStep]
    | other =>
      simp only [parse_line] at h
      obtain ⟨hk, hn⟩ := ih _ _ h
      exact ⟨hk, hn⟩

/-- Counterexample to C8 as stated: the input `p … 2 / n a / d a b` declares
1 package against a header count of 2, yet the run does not abort after
parsing with the count-mismatch exit: the undeclared reference `b` aborts it
during parsing through `check_package`, with that path's own exit status 2. -/
theorem c8_counterexample :
    (declared_names [SPULine.pline 2, SPULine.nline "a", SPULine.dline "a" ["b"]]).length
      ≠ header_count [SPULine.pline 2, SPULine.nline "a", SPULine.dline "a" ["b"]]
    ∧ errOf (parse_and_solve [SPULine.pline 2, SPULine.nline "a", SPULine.dline "a" ["b"]])
      = some SPUError.unknownPackage
    ∧ SPUError.unknownPackage ≠ SPUError.countMismatch
    ∧ exitCode SPUError.unknownPackage = 2 := by
  refine ⟨by decide, by decide, by decide, rfl⟩

/-- C8 as amended: on every input whose parse completes (all dependency and
conflict references resolve) and whose distinct declared package count
differs from the header count, the run aborts after parsing with the
count-mismatch exit, whose status 1 is distinct from the undeclared-package
status 2. -/
theorem c8_mismatch (lines : List SPULine)
    (h1 : isOkE (parse_lines initSPU lines) = true)
    (h2 : (declared_names lines).length ≠ header_count lines) :
    parse_and_solve lines = Except.error SPUError.countMismatch
    ∧ exitCode SPUError.countMismatch ≠ exitCode SPUError.unknownPackage := by
  cases hp : parse_lines initSPU lines with
  | error e =>
    rw [hp] at h1
    simp [isOkE] at h1
  | ok st =>
    obtain ⟨hk, hn⟩ := parse_lines_keys lines initSPU st hp
    have hlen : st.packages.length = (declared_names lines).length := by
      have hmap := congrArg List.length hk
      rw [List.length_map] at hmap
      exact hmap.trans rfl
    have hnum : st.num_packages = header_count lines := hn.trans rfl
    have hred : parse_and_solve lines
        = if st.packages.length ≠ st.num_packages then Except.error SPUError.countMismatch
          else Except.ok st.formula := by
      unfold parse_and_solve
      rw [hp]
    constructor
    · rw [hred, if_pos (by rw [hlen, hnum]; exact h2)]
    · decide

/-- Witness for the amended C8: header count 3 but a single declaration. -/
theorem c8_witness :
    (isOkE (parse_lines initSPU [SPULine.pline 3, SPULine.nline "a"]) = true
     ∧ (declared_names [SPULine.pline 3, SPULine.nline "a"]).length
        ≠ header_count [SPULine.pline 3, SPULine.nline "a"])
    ∧ (parse_and_solve [SPULine.pline 3, SPULine.nline "a"]
        = Except.error SPUError.countMismatch
       ∧ exitCode SPUError.countMismatch ≠ exitCode SPUError.unknownPackage) :=
  ⟨⟨by decide, by decide⟩,
    c8_mismatch [SPULine.pline 3, SPULine.nline "a"] (by decide) (by decide)⟩

/-- C2 is the claim the sources intend but miss: an undeclared first member
of a conflict line, or an undeclared later alternative of a dependency line,
crashes with an uncaught `KeyError` (exit through the interpreter's
traceback) instead of `check_package`'s `UnknownPackage` exit:
`manage_conflict` only checks `conflicts[1]`, and `manage_dependency`
checks `dependencies[1]` on every loop iteration instead of the iterated
alternative. -/
theorem c2_bug :
    errOf (parse_lines initSPU
        [SPULine.pline 2, SPULine.nline "a", SPULine.nline "b", SPULine.cline "x" "a"])
      = some SPUError.keyError
    ∧ errOf (parse_lines initSPU
        [SPULine.pline 2, SPULine.nline "a", SPULine.nline "b",
         SPULine.dline "a" ["b", "zz"]])
      = some SPUError.keyError
    ∧ SPUError.keyError ≠ SPUError.unknownPackage := by
  refine ⟨by decide, by decide, by decide⟩

/-- The input of the validation counterexample: two packages, `a` depending
on the single alternative set `{b}`. -/
def c1_input : List SPULine :=
  [SPULine.pline 2, SPULine.nline "a", SPULine.nline "b", SPULine.dline "a" ["b"]]

/-- The `SPU` state after parsing `c1_input` (the parse succeeds). -/
def c1_state : SPUState := stateOf (parse_lines initSPU c1_input)

/-- C1 is the behaviour the source documents but does not implement: on the
model `[1, -2]` (`a` installed, `b` not), installed `a` has the recorded
alternative set `{b}` with no installed member, so the claim requires
`c VALIDATION WRONG`; the code prints `c VALIDATION OK` because
`ok_dependencies`/`ok_conflicts` look up the name-keyed tables with integer
variable ids, so every lookup yields `None` and every package passes. -/
theorem c1_bug :
    isOkE (parse_lines initSPU c1_input) = true
    ∧ check_solution c1_state [1, -2] = some "c VALIDATION OK"
    ∧ spec_validation c1_state [1, -2] = false := by
  refine ⟨by decide, by decide, by decide⟩

theorem mapM_option_eq {α β : Type} (f : α → Option β) :
    ∀ xs : List α, (∀ x ∈ xs, (f x).isSome = true) →
    ∃ ys, xs.mapM f = some ys ∧ ∀ b, b ∈ ys ↔ ∃ x ∈ xs, f x = some b := by
  intro xs
  induction xs with
  | nil =>
    intro _
    exact ⟨[], rfl, by simp⟩
  | cons x rest ih =>
    intro h
    obtain ⟨y, hy⟩ := Option.isSome_iff_exists.mp (h x (List.mem_cons_self x rest))
    obtain ⟨ys, hys, hmem⟩ := ih (fun z hz => h z (List.mem_cons_of_mem _ hz))
    refine ⟨y :: ys, ?_, ?_⟩
    · rw [List.mapM_cons, hy, hys]
      rfl
    · intro b
      simp only [List.mem_cons]
      constructor
      · rintro (rfl | hb)
        · exact ⟨x, Or.inl rfl, hy⟩
        · obtain ⟨z, hz, hzb⟩ := (hmem b).mp hb
          exact ⟨z, Or.inr hz, hzb⟩
      · rintro ⟨z, rfl | hz, hzb⟩
        · rw [hy] at hzb
          injection hzb with hzb
          exact Or.inl hzb.symm
        · exact Or.inr ((hmem b).mpr ⟨z, hz, hzb⟩)

/-- C7: for a solved instance, `print_solution` prints `o <cost>` and a `v`
line listing exactly the names of the packages whose variable is negative in
the model, sorted in ascending lexicographic order; positive-variable
packages never appear. -/
theorem c7_print_solution (st : SPUState) (opt : ℤ) (model : List ℤ)
    (h : ∀ p ∈ model, p < 0 → (dictGet st.package_ids p.natAbs).isSome = true) :
    ∃ names : List String,
      print_solution st opt model
        = some ["o " ++ toString opt, names.foldl (fun acc s => acc ++ " " ++ s) "v"]
      ∧ List.Pairwise (fun a b => strLe a b = true) names
      ∧ ∀ s : String, s ∈ names ↔
          ∃ p ∈ model, p < 0 ∧ dictGet st.package_ids p.natAbs = some s := by
  have hall : ∀ p ∈ model.filter (fun p => decide (p < 0)),
      (dictGet st.package_ids p.natAbs).isSome = true := by
    intro p hp
    rw [List.mem_filter] at hp
    exact h p hp.1 (by simpa using hp.2)
  obtain ⟨raw, hraw, hmem⟩ := mapM_option_eq _ _ hall
  refine ⟨raw.mergeSort strLe, ?_, ?_, ?_⟩
  · unfold print_solution
    rw [hraw]
    rfl
  · exact List.sorted_mergeSort strLe_trans strLe_total raw
  · intro s
    rw [List.mem_mergeSort, hmem s]
    constructor
    · rintro ⟨p, hp, hps⟩
      rw [List.mem_filter] at hp
      exact ⟨p, hp.1, by simpa using hp.2, hps⟩
    · rintro ⟨p, hp, hneg, hps⟩
      exact ⟨p, List.mem_filter.mpr ⟨hp, by simpa using hneg⟩, hps⟩

/-- A small `SPU` state for the `print_solution` witness: packages `a`
(variable 1) and `b` (variable 2). -/
def c7_state : SPUState :=
  SPUState.mk [("a", 1), ("b", 2)] [(1, "a"), (2, "b")] 2 emptyFormula [] []

/-- Witness for C7 at cost 1 and model `[1, -2]`. -/
theorem c7_witness :
    (∀ p ∈ [(1 : ℤ), -2], p < 0 → (dictGet c7_state.package_ids p.natAbs).isSome = true)
    ∧ ∃ names : List String,
        print_solution c7_state 1 [1, -2]
          = some ["o " ++ toString (1 : ℤ), names.foldl (fun acc s => acc ++ " " ++ s) "v"]
        ∧ List.Pairwise (fun a b => strLe a b = true) names
        ∧ ∀ s : String, s ∈ names ↔
            ∃ p ∈ [(1 : ℤ), -2], p < 0 ∧ dictGet c7_state.package_ids p.natAbs = some s :=
  ⟨by decide, c7_print_solution c7_state 1 [1, -2] (by decide)⟩
